import Mathlib

/-!
Verification development for the `ruledforward` CoreDNS plugin
(rule-based DNS forwarding: matcher with bloom pre-filter, domain-label
trie, group dispatch, AdGuard rule ingestion, upstream selection policy).

Go strings are modelled as `List Char` (the ASCII domain-name alphabet);
maps and sets as association lists respectively membership lists; the
external bloom-filter library as the ideal set of added keys (the library
guarantees no false negatives, and a filter with no keys added tests
negative on every input, so every `= true` conclusion drawn here holds of
the real filter and every concrete counterexample uses an empty filter);
compiled regular expressions as abstract boolean matching functions
provided by a `compile` parameter (Go `regexp.Compile`, an external
library); fallible I/O (file reads, HTTP fetches) as `Except`-valued
environments.
-/

set_option maxRecDepth 4000

namespace RuledF

/-- Go strings restricted to the domain-name alphabet. -/
abbrev Str := List Char

/-- Go `strings.ToLower` (ASCII). -/
def lowerStr (s : Str) : Str := s.map Char.toLower

/-- Go `strings.ToUpper` (ASCII). -/
def upperStr (s : Str) : Str := s.map Char.toUpper

/-- miekg/dns `IsFqdn`: ends in a dot that is not escaped, i.e. the dot is
preceded by an even number of backslashes. -/
def isFqdnStr (s : Str) : Bool :=
  match s.reverse with
  | [] => false
  | c :: rest => c = '.' && (rest.takeWhile (· = '\\')).length % 2 = 0

/-- miekg/dns `Fqdn`: append a trailing dot unless already fully qualified. -/
def fqdnStr (s : Str) : Str := if isFqdnStr s then s else s ++ ['.']

/-- `strings.ToLower(dns.Fqdn(s))`, the normalisation applied to qnames and
to Full/Domain rule values throughout the plugin. -/
def normName (s : Str) : Str := lowerStr (fqdnStr s)

/-- Split a list at every element satisfying `p` (Go `strings.Split`
generalised; `splitP p [] = [[]]` like Go's `Split("", sep)`). -/
def splitP (p : Char → Bool) : Str → List Str
  | [] => [[]]
  | c :: rest =>
    if p c then [] :: splitP p rest
    else
      match splitP p rest with
      | [] => [[c]]
      | q :: qs => (c :: q) :: qs

/-- Go `strings.TrimSuffix(s, ".")`. -/
def trimDot (s : Str) : Str :=
  if s.reverse.head? = some '.' then s.dropLast else s

/-- matcher.go `domainLabels`: labels of an FQDN from right to left (TLD
first), empty labels skipped.  `"a.b.example.com."` becomes
`["com", "example", "b", "a"]`. -/
def domainLabels (s : Str) : List Str :=
  ((splitP (· = '.') (trimDot s)).filter (· ≠ [])).reverse

/-- matcher.go `domainTrieNode`: label-based trie, labels stored
right-to-left, `matchEnd` marks the end of a rule domain.  The Go
`map[string]*domainTrieNode` is an association list here. -/
inductive DomainTrie : Type where
  | node : Bool → List (Str × DomainTrie) → DomainTrie

def DomainTrie.matchEnd : DomainTrie → Bool
  | .node b _ => b

def DomainTrie.children : DomainTrie → List (Str × DomainTrie)
  | .node _ c => c

/-- Lookup of one child by label (Go map indexing). -/
def lookupChild : List (Str × DomainTrie) → Str → Option DomainTrie
  | [], _ => none
  | (k, v) :: rest, l => if k = l then some v else lookupChild rest l

/-- Replace (or add) one child binding (Go map assignment). -/
def setChild : List (Str × DomainTrie) → Str → DomainTrie → List (Str × DomainTrie)
  | [], l, c => [(l, c)]
  | (k, v) :: rest, l, c => if k = l then (l, c) :: rest else (k, v) :: setChild rest l c

/-- The per-label descent of matcher.go `insertDomainTrie`. -/
def trieInsert : List Str → DomainTrie → DomainTrie
  | [], t => .node true t.children
  | l :: ls, t =>
    let sub :=
      match lookupChild t.children l with
      | none => trieInsert ls (.node false [])
      | some c => trieInsert ls c
    .node t.matchEnd (setChild t.children l sub)

/-- matcher.go `insertDomainTrie`: rules with no labels are skipped, a
missing root is created on first insertion. -/
def insertDomainTrie (t : Option DomainTrie) (v : Str) : Option DomainTrie :=
  let labels := domainLabels v
  if labels = [] then t
  else some (trieInsert labels (t.getD (.node false [])))

/-- The label walk of matcher.go `matchDomainTrie`: at each node a set
terminal flag matches; otherwise descend along the next label. -/
def trieWalk : DomainTrie → List Str → Bool
  | t, [] => t.matchEnd
  | t, l :: ls =>
    if t.matchEnd then true
    else
      match lookupChild t.children l with
      | none => false
      | some c => trieWalk c ls

/-- Exact-path membership in the trie (proof device, not in the source). -/
def trieContains : DomainTrie → List Str → Bool
  | t, [] => t.matchEnd
  | t, l :: ls =>
    match lookupChild t.children l with
    | none => false
    | some c => trieContains c ls

def trieContainsOpt : Option DomainTrie → List Str → Bool
  | none, _ => false
  | some t, ls => trieContains t ls

/-- matcher.go `RuleType`. -/
inductive RuleType : Type where
  | domain
  | full
  | keyword
  | regex
deriving DecidableEq, Repr

/-- matcher.go `Rule`. -/
structure Rule where
  type : RuleType
  value : Str
deriving DecidableEq, Repr

/-- matcher.go `matcher`: the Go `map[string]struct{}` of Full keys is a
membership list, compiled regexes are abstract boolean matchers. -/
structure Matcher where
  full : List Str
  domain : List Str
  domainTrie : Option DomainTrie
  keyword : List Str
  regex : List (Str → Bool)

/-- matcher.go `NewMatcher`. -/
def newMatcher : Matcher :=
  { full := [], domain := [], domainTrie := none, keyword := [], regex := [] }

/-- matcher.go `(*matcher).AddRule`, parametrised by `regexp.Compile`
(a regex that fails to compile is dropped). -/
def addRule (compile : Str → Option (Str → Bool)) (m : Matcher) (r : Rule) : Matcher :=
  let val := normName r.value
  match r.type with
  | .full => { m with full := val :: m.full }
  | .domain => { m with domain := m.domain ++ [val] }
  | .keyword => { m with keyword := m.keyword ++ [lowerStr r.value] }
  | .regex =>
    match compile r.value with
    | none => m
    | some f => { m with regex := m.regex ++ [f] }

/-- The deduplicating trie-construction loop of matcher.go `Build`
(the `seen` set is an accumulator list). -/
def buildTrieFrom (ds : List Str) : Option DomainTrie :=
  (ds.foldl
    (fun (acc : Option DomainTrie × List Str) d =>
      if d ∈ acc.2 then acc else (insertDomainTrie acc.1 d, d :: acc.2))
    (none, [])).1

/-- matcher.go `Build`: build the trie from the accumulated domain rules
and sort the domain slice longest-first (used only by `keysForBloom`). -/
def build (m : Matcher) : Matcher :=
  { m with
    domainTrie := buildTrieFrom m.domain,
    domain := m.domain.mergeSort (fun a b => b.length ≤ a.length) }

/-- matcher.go `matchDomainTrie`. -/
def matchDomainTrie (m : Matcher) (q : Str) : Bool :=
  let labels := domainLabels q
  if labels = [] then false
  else
    match m.domainTrie with
    | none => false
    | some t => trieWalk t labels

/-- Go `strings.Contains`: some suffix of the haystack starts with the
pattern. -/
def containsSubstr (hay pat : Str) : Bool :=
  (List.range (hay.length + 1)).any (fun i => pat.isPrefixOf (hay.drop i))

/-- matcher.go `(*matcher).Match`: full set, then domain trie, then
keyword substrings, then regexes. -/
def matchM (m : Matcher) (qname : Str) : Bool :=
  let q := normName qname
  if m.full.contains q then true
  else if matchDomainTrie m q then true
  else if m.keyword.any (fun k => containsSubstr q k) then true
  else m.regex.any (fun re => re q)

/-- A matcher as built by the plugin: `AddRule` over the rule list, then
`Build`. -/
def buildMatcher (compile : Str → Option (Str → Bool)) (rs : List Rule) : Matcher :=
  build (rs.foldl (addRule compile) newMatcher)

/-- A compile environment with no compilable regexes, used to instantiate
concrete matchers that carry no Regex rules. -/
def noRegex : Str → Option (Str → Bool) := fun _ => none

/-- The §3 rule semantics exactly as claim C1 words them: Full is equality,
Domain is equality or a dot-aligned string suffix (`q` ends in `.v`),
Keyword is a substring of the normalised qname, Regex is the compiled
regex applied to the normalised qname.  Values are taken up to the
normalisation §3 prescribes for each kind. -/
def claimRuleMatches (compile : Str → Option (Str → Bool)) (r : Rule) (q : Str) : Bool :=
  let q' := normName q
  match r.type with
  | .full => q' = normName r.value
  | .domain => q' = normName r.value || ('.' :: normName r.value).isSuffixOf q'
  | .keyword => containsSubstr q' (lowerStr r.value)
  | .regex =>
    match compile r.value with
    | none => false
    | some f => f q'

/-- The amended §3 semantics: the Domain clause is stated on label lists
(labels of the rule value, read right to left with empty labels dropped,
must be non-empty and a prefix of the labels of the qname);  the other
three clauses are unchanged from `claimRuleMatches`. -/
def amendedRuleMatches (compile : Str → Option (Str → Bool)) (r : Rule) (q : Str) : Bool :=
  let q' := normName q
  match r.type with
  | .full => q' = normName r.value
  | .domain =>
    !(domainLabels (normName r.value)).isEmpty &&
      (domainLabels (normName r.value)).isPrefixOf (domainLabels q')
  | .keyword => containsSubstr q' (lowerStr r.value)
  | .regex =>
    match compile r.value with
    | none => false
    | some f => f q'

/-- bloom.go `BloomFilter`, modelled as the ideal set of added keys: `Test`
is exact membership.  The real filter (external library) admits false
positives but no false negatives, and tests negative while empty. -/
structure BloomFilterM where
  keys : List Str
deriving DecidableEq, Repr

/-- The bit-array membership probe of the modelled filter. -/
def bloomTest (b : BloomFilterM) (s : Str) : Bool := b.keys.contains s

/-- bloom.go `(*BloomFilter).Add`: each key is lowercase+FQDN normalised
before insertion; empty keys are skipped (unreachable, `Fqdn` output is
never empty). -/
def bloomAdd : BloomFilterM → List Str → BloomFilterM
  | b, [] => b
  | b, s :: rest =>
    let key := normName s
    if key.length = 0 then bloomAdd b rest
    else bloomAdd { keys := b.keys ++ [key] } rest

/-- The suffix enumeration of bloom.go `MaybeMatch`: repeatedly strip
through the first dot, collecting each non-empty remainder (stopping at an
empty remainder, exactly like the Go loop). -/
def dotSuffixes : Str → List Str
  | [] => []
  | c :: rest =>
    if c = '.' then
      if rest = [] then [] else rest :: dotSuffixes rest
    else dotSuffixes rest

/-- bloom.go `(*BloomFilter).MaybeMatch`: test the normalised qname, then
every parent suffix obtained by stripping leading labels. -/
def maybeMatch (b : BloomFilterM) (qname : Str) : Bool :=
  let q := normName qname
  bloomTest b q || (dotSuffixes q).any (bloomTest b)

/-- matcher.go `bloomedMatcher`. -/
structure BloomedMatcher where
  m : Matcher
  bf : BloomFilterM

/-- matcher.go `NewBloomedMatcher` (sizing parameters do not affect the
ideal-set model). -/
def newBloomedMatcher : BloomedMatcher :=
  { m := newMatcher, bf := { keys := [] } }

/-- matcher.go `(*bloomedMatcher).AddRule`: forward to the inner matcher,
and add Domain/Full rule values (unnormalised; `Add` normalises) to the
filter. -/
def bloomedAddRule (compile : Str → Option (Str → Bool)) (bm : BloomedMatcher) (r : Rule) :
    BloomedMatcher :=
  { m := addRule compile bm.m r,
    bf :=
      match r.type with
      | .domain => bloomAdd bm.bf [r.value]
      | .full => bloomAdd bm.bf [r.value]
      | _ => bm.bf }

/-- matcher.go `(*bloomedMatcher).Build`. -/
def bloomedBuild (bm : BloomedMatcher) : BloomedMatcher :=
  { bm with m := build bm.m }

/-- matcher.go `(*bloomedMatcher).Match`: bloom pre-filter short-circuits
the full matcher. -/
def bloomedMatch (bm : BloomedMatcher) (qname : Str) : Bool :=
  maybeMatch bm.bf qname && matchM bm.m qname

/-- A bloomed matcher as built by the plugin. -/
def buildBloomed (compile : Str → Option (Str → Bool)) (rs : List Rule) : BloomedMatcher :=
  bloomedBuild (rs.foldl (bloomedAddRule compile) newBloomedMatcher)

/-! ## Group state and `updateMatcher` (ruledforward.go) -/

/-- The fallible rule sources: `LoadAdguardFromFile` over paths and
`LoadAdguardFromURL` over URLs (I/O modelled as environments; the error
payload is irrelevant to the plugin and elided). -/
structure SourceEnv where
  files : Str → Except Unit (List Rule)
  urls : Str → Except Unit (List Rule)

/-- The rule-source configuration of a `Group`. -/
structure GroupCfg where
  name : Str
  geositeNames : List Str
  inlineRules : List Rule
  adguardPaths : List Str
  adguardURLs : List Str
deriving DecidableEq, Repr

/-- A `Group`'s mutable state: the atomic matcher pointer (`none` before
first `SetMatcher`) and a ghost counter of `SetMatcher` calls. -/
structure GroupState where
  cfg : GroupCfg
  matcher : Option BloomedMatcher
  setCount : Nat

/-- ruledforward.go `(*Group).SetMatcher` (atomic store; the ghost counter
records that a store happened). -/
def setMatcher (g : GroupState) (m : BloomedMatcher) : GroupState :=
  { g with matcher := some m, setCount := g.setCount + 1 }

/-- ruledforward.go update-item bit masks. -/
def UpdateMatcherGeosite : Nat := 1
def UpdateMatcherInlinee : Nat := 2
def UpdateMatcherAdguardLocal : Nat := 4
def UpdateMatcherAdguardRemote : Nat := 8
def UpdateMatcherLocal : Nat :=
  UpdateMatcherGeosite ||| UpdateMatcherInlinee ||| UpdateMatcherAdguardLocal
def UpdateMatcherAll : Nat := UpdateMatcherLocal ||| UpdateMatcherAdguardRemote

/-- `AddRule` over a batch of rules. -/
def addRules (compile : Str → Option (Str → Bool)) (bm : BloomedMatcher) (rs : List Rule) :
    BloomedMatcher :=
  rs.foldl (bloomedAddRule compile) bm

/-- The load-and-add loop shared by the adguard path and URL blocks of
`updateMatcher`: load each source in order, adding its rules; the first
load error aborts the whole update. -/
def loadApply (loader : Str → Except Unit (List Rule))
    (compile : Str → Option (Str → Bool)) :
    BloomedMatcher → List Str → Except Unit BloomedMatcher
  | bm, [] => .ok bm
  | bm, p :: rest =>
    match loader p with
    | .error e => .error e
    | .ok rs => loadApply loader compile (addRules compile bm rs) rest

/-- The geosite block of `updateMatcher`: for each configured list name,
look up the uppercased name in the dlc map (when a map was loaded; a
missing key yields no rules, Go's zero value). -/
def addGeosite (compile : Str → Option (Str → Bool)) (dlc : Option (Str → List Rule))
    (bm : BloomedMatcher) (names : List Str) : BloomedMatcher :=
  names.foldl
    (fun b nm =>
      match dlc with
      | none => b
      | some mp => addRules compile b (mp (upperStr nm)))
    bm

/-- ruledforward.go `(*Group).updateMatcher`: build a fresh bloomed
matcher from the sources selected by the bit mask, and publish it with
`SetMatcher` only when every selected source loaded; any load error
returns early, leaving the group untouched. -/
def updateMatcher (compile : Str → Option (Str → Bool)) (env : SourceEnv)
    (dlc : Option (Str → List Rule)) (mask : Nat) (g : GroupState) :
    GroupState × Except Unit Unit :=
  let bm0 := newBloomedMatcher
  let bm1 :=
    if mask &&& UpdateMatcherGeosite ≠ 0 then addGeosite compile dlc bm0 g.cfg.geositeNames
    else bm0
  let bm2 :=
    if mask &&& UpdateMatcherInlinee ≠ 0 then addRules compile bm1 g.cfg.inlineRules
    else bm1
  match
    (if mask &&& UpdateMatcherAdguardLocal ≠ 0 then loadApply env.files compile bm2 g.cfg.adguardPaths
     else .ok bm2) with
  | .error e => (g, .error e)
  | .ok bm3 =>
    match
      (if mask &&& UpdateMatcherAdguardRemote ≠ 0 then
        loadApply env.urls compile bm3 g.cfg.adguardURLs
       else .ok bm3) with
    | .error e => (g, .error e)
    | .ok bm4 => (setMatcher g (bloomedBuild bm4), .ok ())

/-- ruledforward.go `(*Group).Update`: delegate to `updateMatcher`. -/
def updateG (compile : Str → Option (Str → Bool)) (env : SourceEnv)
    (dlc : Option (Str → List Rule)) (mask : Nat) (g : GroupState) :
    GroupState × Except Unit Unit :=
  updateMatcher compile env dlc mask g

/-- The state-free rebuild: the same source selection as `updateMatcher`,
returning the accumulated (not yet built) matcher or the first load
error.  Used to characterise `updateMatcher`'s atomicity. -/
def accumSelected (compile : Str → Option (Str → Bool)) (env : SourceEnv)
    (dlc : Option (Str → List Rule)) (mask : Nat) (cfg : GroupCfg) :
    Except Unit BloomedMatcher :=
  let bm0 := newBloomedMatcher
  let bm1 :=
    if mask &&& UpdateMatcherGeosite ≠ 0 then addGeosite compile dlc bm0 cfg.geositeNames
    else bm0
  let bm2 :=
    if mask &&& UpdateMatcherInlinee ≠ 0 then addRules compile bm1 cfg.inlineRules
    else bm1
  match
    (if mask &&& UpdateMatcherAdguardLocal ≠ 0 then loadApply env.files compile bm2 cfg.adguardPaths
     else .ok bm2) with
  | .error e => .error e
  | .ok bm3 =>
    if mask &&& UpdateMatcherAdguardRemote ≠ 0 then loadApply env.urls compile bm3 cfg.adguardURLs
    else .ok bm3

/-! ## DNS messages and the dispatcher (ruledforward.go `ServeDNS`) -/

/-- One question-section entry of a DNS message. -/
structure DnsQuestion where
  name : Str
  qtype : Nat
deriving DecidableEq, Repr

/-- A SOA resource record together with its header fields, as produced by
`soaForEmpty` (miekg/dns `dns.SOA`). -/
structure SoaRR where
  name : Str
  ttl : Nat
  rrclass : Nat
  rrtype : Nat
  ns : Str
  mbox : Str
  serial : Nat
  refresh : Nat
  retry : Nat
  expire : Nat
  minttl : Nat
deriving DecidableEq, Repr

/-- A DNS message restricted to what the empty-action path manipulates:
answers are opaque, the authority section holds SOA records. -/
structure DnsMsg where
  id : Nat
  response : Bool
  question : List DnsQuestion
  answer : List Nat
  ns : List SoaRR
deriving DecidableEq, Repr

/-- Models miekg/dns `(*Msg).SetReply`: echo the id and the first question
of the request; all record sections start empty. -/
def setReply (req : DnsMsg) : DnsMsg :=
  { id := req.id, response := true, question := req.question.take 1, answer := [], ns := [] }

/-- ruledforward.go `emptyTTL`. -/
def emptyTTL : Nat := 60

/-- miekg/dns `ClassINET` and `TypeSOA`. -/
def classINET : Nat := 1
def typeSOA : Nat := 6

/-- ruledforward.go `soaForEmpty`: a single SOA authority record with
owner = origin, TTL 60, class IN, NS and mailbox `.`, all counters zero
and minimum TTL 60. -/
def soaForEmpty (origin : Str) : List SoaRR :=
  [{ name := origin, ttl := emptyTTL, rrclass := classINET, rrtype := typeSOA,
     ns := ['.'], mbox := ['.'],
     serial := 0, refresh := 0, retry := 0, expire := 0, minttl := emptyTTL }]

/-- The reply written by the `empty` action: `SetReply` then the SOA
authority section. -/
def emptyActionMsg (req : DnsMsg) (qname : Str) : DnsMsg :=
  { setReply req with ns := soaForEmpty qname }

/-- Models coredns `request.Request.Name()`: the lowercased name of the
first question, `"."` when the request has none. -/
def reqName (req : DnsMsg) : Str :=
  match req.question with
  | [] => ['.']
  | qq :: _ => lowerStr qq.name

/-- A group as seen by the dispatcher: the matcher behind the atomic
pointer abstracted to its `Match` function (`none` before first
`SetMatcher`). -/
structure DispatchGroup where
  name : Str
  action : Str
  matcher : Option (Str → Bool)

/-- ruledforward.go `Ruledforward`. -/
structure Ruledforward where
  fromZone : Str
  groups : List DispatchGroup
  defaultGroup : Option DispatchGroup

/-- What `ServeDNS` observably does with one request: synthesise an empty
reply (counted for the named group), delegate to `forwardGroup` (counted
for the named group), pass through because the qname is out of zone, or
increment `no_match_total` and pass through. -/
inductive Outcome : Type where
  | emptyReply (group : Str) (msg : DnsMsg)
  | forwarded (group : Str)
  | passThroughZone
  | passThroughNoMatch
deriving DecidableEq, Repr

/-- The group-scan loop of `ServeDNS`: skip the group named `default`,
skip groups whose matcher is unset or does not match, act on the first
remaining group by its action (an unrecognised action also continues the
scan, like the Go `switch` default). -/
def scanGroups (q : Str) (req : DnsMsg) : List DispatchGroup → Option Outcome
  | [] => none
  | g :: gs =>
    if g.name = "default".toList then scanGroups q req gs
    else
      match g.matcher with
      | none => scanGroups q req gs
      | some f =>
        if f q = false then scanGroups q req gs
        else if g.action = "empty".toList then some (.emptyReply g.name (emptyActionMsg req q))
        else if g.action = "forward".toList then some (.forwarded g.name)
        else scanGroups q req gs

/-- ruledforward.go `(*Ruledforward).ServeDNS`: zone gate, in-order group
scan, cached default group (its matcher never consulted), else
`no_match_total` and pass-through.  `zoneMatches` models the external
`plugin.Name(from).Matches(qname)`. -/
def serveDNS (zoneMatches : Str → Str → Bool) (r : Ruledforward) (req : DnsMsg) : Outcome :=
  let qname := reqName req
  if r.fromZone ≠ ['.'] ∧ zoneMatches r.fromZone qname = false then .passThroughZone
  else
    match scanGroups qname req r.groups with
    | some o => o
    | none =>
      match r.defaultGroup with
      | some d =>
        if d.action = "empty".toList then .emptyReply d.name (emptyActionMsg req qname)
        else if d.action = "forward".toList then .forwarded d.name
        else .passThroughNoMatch
      | none => .passThroughNoMatch

/-- A group's matcher outcome as the scan sees it: false when unset. -/
def matcherMatches (g : DispatchGroup) (q : Str) : Bool :=
  match g.matcher with
  | none => false
  | some f => f q

/-- The claim-side dispatch rule: the first group in configured order,
skipping the one named `default`, whose matcher is non-null and matches
the qname. -/
def firstMatchingGroup (q : Str) (gs : List DispatchGroup) : Option DispatchGroup :=
  gs.find? (fun g => g.name ≠ "default".toList && matcherMatches g q)

/-- The observable effect of applying a group's action (claim side). -/
def actionOutcome (g : DispatchGroup) (req : DnsMsg) (q : Str) : Outcome :=
  if g.action = "empty".toList then .emptyReply g.name (emptyActionMsg req q)
  else .forwarded g.name

/-- The dispatch behaviour exactly as claim C3 words it. -/
def dispatchSpec (zoneMatches : Str → Str → Bool) (r : Ruledforward) (req : DnsMsg) : Outcome :=
  let q := reqName req
  if r.fromZone ≠ ['.'] ∧ zoneMatches r.fromZone q = false then .passThroughZone
  else
    match firstMatchingGroup q r.groups with
    | some g => actionOutcome g req q
    | none =>
      match r.defaultGroup with
      | some d => actionOutcome d req q
      | none => .passThroughNoMatch

/-- Configured groups carry one of the two validated actions
(`buildGroup` rejects anything else). -/
def validAction (g : DispatchGroup) : Prop :=
  g.action = "empty".toList ∨ g.action = "forward".toList

/-! ## AdGuard list parsing (adguard.go) -/

/-- Go `unicode.IsSpace` restricted to the Latin-1 range. -/
def goSpace (c : Char) : Bool :=
  c = ' ' || c = '\t' || c = '\n' || c = '\x0b' || c = '\x0c' || c = '\r' ||
    c = '\x85' || c = '\xa0'

/-- Go `strings.TrimSpace`. -/
def trimSpace (s : Str) : Str :=
  ((s.dropWhile goSpace).reverse.dropWhile goSpace).reverse

/-- Go `strings.Fields`: whitespace-separated tokens. -/
def goFields (s : Str) : List Str :=
  (splitP goSpace s).filter (· ≠ [])

/-- Go `strings.HasPrefix`. -/
def hasPre (pre l : Str) : Bool := pre.isPrefixOf l

/-- Go `strings.TrimSuffix(s, "^")`. -/
def trimCaret (s : Str) : Str :=
  if s.reverse.head? = some '^' then s.dropLast else s

/-- adguard.go `isIP`: the hosts-file heuristic, a token containing a dot
or a colon. -/
def isIP (s : Str) : Bool := s.contains '.' || s.contains ':'

/-- The loop body of adguard.go `ParseAdguardRules` for one input line:
comments (`#`, `!`) and exceptions (`@@`) are dropped; `||host^` yields a
Domain rule; `/re/` a Regex rule; an IP-shaped first token of a multi-token
line yields a Full rule for the second token; a single bare token yields a
Full rule unless it normalises to `"."`. -/
def parseAdguardLine (raw : Str) : List Rule :=
  let line := trimSpace raw
  if line = [] then []
  else if hasPre ['#'] line || hasPre ['!'] line then []
  else if hasPre ['@', '@'] line then []
  else if hasPre ['|', '|'] line then
    let rest := trimSpace (trimCaret (line.drop 2))
    if rest = [] then [] else [{ type := .domain, value := lowerStr (fqdnStr rest) }]
  else if line.length ≥ 2 ∧ line.head? = some '/' ∧ line.reverse.head? = some '/' then
    [{ type := .regex, value := (line.drop 1).dropLast }]
  else
    let parts := goFields line
    if parts.length ≥ 2 ∧ isIP (parts.headD []) then
      [{ type := .full, value := lowerStr (fqdnStr (parts.getD 1 [])) }]
    else if parts.length = 1 then
      let domain := lowerStr (fqdnStr (trimSpace (parts.headD [])))
      if domain = ['.'] then [] else [{ type := .full, value := domain }]
    else []

/-- adguard.go `ParseAdguardRules`: scan the body line by line (the
`bufio.Scanner` line split, carriage returns stripped) and concatenate
each line's rules. -/
def parseAdguardRules (body : Str) : List Rule :=
  ((splitP (· = '\n') body).map
    (fun l => if l.reverse.head? = some '\r' then l.dropLast else l)).flatMap
    parseAdguardLine

/-! ## Upstream selection policies (policy.go) -/

/-- policy.go `sequential.List`: input order unchanged. -/
def sequentialList (p : List α) : List α := p

/-- policy.go `roundRobin.List`: the shared counter is incremented with
uint32 wrap-around and reduced modulo the pool length; the pool is rotated
to start at that index.  On an empty pool the Go code divides by zero and
panics, modelled as `none`. -/
def roundRobinList (robin : Nat) (p : List α) : Option (List α) :=
  if h : p.length = 0 then none
  else
    let i := ((robin + 1) % 2 ^ 32) % p.length
    some (p.get ⟨i, Nat.mod_lt _ (Nat.pos_of_ne_zero h)⟩ :: (p.take i ++ p.drop (i + 1)))

/-- policy.go `random.List`: pools of size one are returned as is, pools
of size two are swapped on a coin flip (`rn.Int()%2 == 0`), larger pools
are reordered along a permutation drawn from `rn.Perm(len(p))` (indices
out of the pool, which `rand.Perm` never produces, are skipped). -/
def randomList (coin : Bool) (perm : List Nat) (p : List α) : List α :=
  match p with
  | [a] => [a]
  | [a, b] => if coin then [b, a] else [a, b]
  | _ => perm.filterMap (fun i => p[i]?)

/-! ## Theorems -/

theorem filterMap_getElem_range {α : Type} (p : List α) :
    (List.range p.length).filterMap (fun i => p[i]?) = p := by
  induction p with
  | nil => rfl
  | cons a as ih =>
    rw [List.length_cons, List.range_succ_eq_map, List.filterMap_cons, List.filterMap_map]
    simp only [List.getElem?_cons_zero, Function.comp_def, List.getElem?_cons_succ]
    rw [ih]

/-- C9: the policy list law.  Amended: `sequential` and `random` satisfy it
for every pool, `round_robin` for every non-empty pool (on an empty pool
its index computation divides by zero and panics).  The `random` default
path is stated under the contract of the external `rand.Perm`, namely that
it yields a permutation of the index range. -/
theorem policy_list_law {α : Type} (p : List α) (robin : Nat) (coin : Bool) (perm : List Nat)
    (hperm : perm.Perm (List.range p.length)) (hp : p ≠ []) :
    (sequentialList p = p) ∧
    (∃ l, roundRobinList robin p = some l ∧ l.length = p.length ∧ l.Perm p) ∧
    ((randomList coin perm p).length = p.length ∧ (randomList coin perm p).Perm p) := by
  have hlen : p.length ≠ 0 := fun h => hp (List.eq_nil_of_length_eq_zero h)
  have hi : ((robin + 1) % 2 ^ 32) % p.length < p.length :=
    Nat.mod_lt _ (Nat.pos_of_ne_zero hlen)
  have hsplit :
      p.take (((robin + 1) % 2 ^ 32) % p.length) ++
        p.get ⟨((robin + 1) % 2 ^ 32) % p.length, hi⟩ ::
          p.drop (((robin + 1) % 2 ^ 32) % p.length + 1) = p := by
    rw [List.get_eq_getElem, ← List.drop_eq_getElem_cons, List.take_append_drop]
  have hpp :
      (p.get ⟨((robin + 1) % 2 ^ 32) % p.length, hi⟩ ::
        (p.take (((robin + 1) % 2 ^ 32) % p.length) ++
          p.drop (((robin + 1) % 2 ^ 32) % p.length + 1))).Perm p := by
    conv_rhs => rw [← hsplit]
    exact List.perm_middle.symm
  have hrand : (randomList coin perm p).Perm p := by
    rcases p with _ | ⟨a, _ | ⟨b, _ | ⟨c, rest⟩⟩⟩
    · exact absurd rfl hp
    · exact List.Perm.refl _
    · cases coin
      · exact List.Perm.refl _
      · exact List.Perm.swap a b []
    · show List.Perm (perm.filterMap fun i => (a :: b :: c :: rest)[i]?) (a :: b :: c :: rest)
      have h1 := hperm.filterMap (fun i => (a :: b :: c :: rest)[i]?)
      rwa [filterMap_getElem_range] at h1
  refine ⟨rfl, ?_, hrand.length_eq, hrand⟩
  rw [roundRobinList, dif_neg hlen]
  exact ⟨_, rfl, hpp.length_eq, hpp⟩

/-- C9 counterexample: on an empty pool, `round_robin` produces no list at
all (the Go code panics on `% 0`), so the law fails as universally
stated. -/
theorem policy_roundRobin_empty_counterexample :
    roundRobinList 0 ([] : List Nat) = none ∧
      ¬∃ l : List Nat, roundRobinList 0 ([] : List Nat) = some l ∧ l.length = 0 := by
  refine ⟨rfl, ?_⟩
  rintro ⟨l, hl, -⟩
  simp [roundRobinList] at hl

/-- Witness for C9 at a concrete three-element pool. -/
theorem policy_list_law_witness :
    (sequentialList [10, 20, 30] = [10, 20, 30]) ∧
    (∃ l, roundRobinList 0 [10, 20, 30] = some l ∧ l.length = 3 ∧ l.Perm [10, 20, 30]) ∧
    ((randomList true [2, 0, 1] [10, 20, 30]).length = 3 ∧
      (randomList true [2, 0, 1] [10, 20, 30]).Perm [10, 20, 30]) :=
  policy_list_law [10, 20, 30] 0 true [2, 0, 1] (by decide) (by decide)

/-- C8: a non-comment, non-exception line of two or more whitespace
tokens (not `||`-form, not `/regex/`-form) yields a Full rule for the
lowercased FQDN-normalised second token exactly when the first token is
IP-shaped (adguard.go `isIP`), and otherwise no rule. -/
theorem adguard_hosts_line (raw t1 t2 : Str) (rest : List Str)
    (hne : trimSpace raw ≠ [])
    (hc1 : hasPre ['#'] (trimSpace raw) = false)
    (hc2 : hasPre ['!'] (trimSpace raw) = false)
    (hex : hasPre ['@', '@'] (trimSpace raw) = false)
    (hbar : hasPre ['|', '|'] (trimSpace raw) = false)
    (hre : ¬((trimSpace raw).length ≥ 2 ∧ (trimSpace raw).head? = some '/' ∧
        (trimSpace raw).reverse.head? = some '/'))
    (hf : goFields (trimSpace raw) = t1 :: t2 :: rest) :
    parseAdguardLine raw =
      if isIP t1 then [{ type := .full, value := lowerStr (fqdnStr t2) }] else [] := by
  rw [parseAdguardLine]
  simp only [hc1, hc2, hex, hbar, hf, Bool.or_self, Bool.false_eq_true, if_false,
    if_neg hne, if_neg hre]
  by_cases hip : isIP t1
  · rw [if_pos hip, if_pos]
    · rfl
    · exact ⟨by simp, by simpa using hip⟩
  · rw [if_neg hip, if_neg, if_neg]
    · simp only [List.length_cons]
      omega
    · rintro ⟨-, h⟩
      exact hip (by simpa using h)

/-- Witness for C8 on the hosts-style line from the repository's own
test data, plus the non-IP-shaped variant. -/
theorem adguard_hosts_line_witness :
    parseAdguardLine "1.2.3.4 host.with.ip".toList =
      (if isIP "1.2.3.4".toList then
        [{ type := .full, value := lowerStr (fqdnStr "host.with.ip".toList) }]
      else []) :=
  adguard_hosts_line "1.2.3.4 host.with.ip".toList "1.2.3.4".toList "host.with.ip".toList []
    (by decide) (by decide) (by decide) (by decide) (by decide) (by decide) (by decide)

theorem firstMatchingGroup_cons (q : Str) (g : DispatchGroup) (gs : List DispatchGroup) :
    firstMatchingGroup q (g :: gs) =
      if (g.name ≠ "default".toList && matcherMatches g q) = true
      then some g else firstMatchingGroup q gs := by
  rw [firstMatchingGroup, List.find?_cons, firstMatchingGroup]
  rcases hb : (g.name ≠ "default".toList && matcherMatches g q) with _ | _ <;> simp [hb]

theorem firstMatchingGroup_cons_miss (q : Str) (g : DispatchGroup) (gs : List DispatchGroup)
    (h : g.name = "default".toList ∨ g.matcher = none ∨
      ∃ f, g.matcher = some f ∧ f q = false) :
    firstMatchingGroup q (g :: gs) = firstMatchingGroup q gs := by
  have hc : (decide (g.name ≠ "default".toList) && matcherMatches g q) = false := by
    rcases h with h | h | ⟨f, hf, hfq⟩
    · simp [h]
    · simp [matcherMatches, h]
    · simp [matcherMatches, hf, hfq]
  rw [firstMatchingGroup_cons, if_neg (by rw [hc]; exact Bool.false_ne_true)]

theorem firstMatchingGroup_cons_hit (q : Str) (g : DispatchGroup) (gs : List DispatchGroup)
    (f : Str → Bool) (hname : g.name ≠ "default".toList) (hmat : g.matcher = some f)
    (hfq : f q = true) :
    firstMatchingGroup q (g :: gs) = some g := by
  have hname' : g.name ≠ (['d', 'e', 'f', 'a', 'u', 'l', 't'] : Str) := hname
  have hc : (decide (g.name ≠ "default".toList) && matcherMatches g q) = true := by
    simp [matcherMatches, hmat, hfq, hname']
  rw [firstMatchingGroup_cons, if_pos hc]

theorem scanGroups_cons_miss (q : Str) (req : DnsMsg) (g : DispatchGroup)
    (gs : List DispatchGroup)
    (h : g.name = "default".toList ∨ g.matcher = none ∨
      ∃ f, g.matcher = some f ∧ f q = false) :
    scanGroups q req (g :: gs) = scanGroups q req gs := by
  rw [scanGroups]
  rcases h with h | h | ⟨f, hf, hfq⟩
  · rw [if_pos h]
  · by_cases hname : g.name = "default".toList
    · rw [if_pos hname]
    · rw [if_neg hname, h]
  · by_cases hname : g.name = "default".toList
    · rw [if_pos hname]
    · rw [if_neg hname, hf]
      exact if_pos hfq

theorem scanGroups_cons_hit (q : Str) (req : DnsMsg) (g : DispatchGroup)
    (gs : List DispatchGroup) (f : Str → Bool) (hname : g.name ≠ "default".toList)
    (hmat : g.matcher = some f) (hfq : f q = true) :
    scanGroups q req (g :: gs) =
      (if g.action = "empty".toList then some (Outcome.emptyReply g.name (emptyActionMsg req q))
       else if g.action = "forward".toList then some (Outcome.forwarded g.name)
       else scanGroups q req gs) := by
  rw [scanGroups, if_neg hname, hmat]
  exact if_neg (by simp [hfq])

theorem scanGroups_eq_spec (q : Str) (req : DnsMsg) (gs : List DispatchGroup)
    (hv : ∀ g ∈ gs, validAction g) :
    scanGroups q req gs = (firstMatchingGroup q gs).map (fun g => actionOutcome g req q) := by
  induction gs with
  | nil => rfl
  | cons g gs ih =>
    have hg := hv g (List.mem_cons_self g gs)
    have hrest : ∀ g' ∈ gs, validAction g' := fun g' h => hv g' (List.mem_cons_of_mem g h)
    by_cases hname : g.name = "default".toList
    · rw [scanGroups_cons_miss q req g gs (Or.inl hname),
        firstMatchingGroup_cons_miss q g gs (Or.inl hname)]
      exact ih hrest
    · rcases hmat : g.matcher with _ | f
      · rw [scanGroups_cons_miss q req g gs (Or.inr (Or.inl hmat)),
          firstMatchingGroup_cons_miss q g gs (Or.inr (Or.inl hmat))]
        exact ih hrest
      · rcases hfq : f q with _ | _
        · rw [scanGroups_cons_miss q req g gs (Or.inr (Or.inr ⟨f, hmat, hfq⟩)),
            firstMatchingGroup_cons_miss q g gs (Or.inr (Or.inr ⟨f, hmat, hfq⟩))]
          exact ih hrest
        · rw [scanGroups_cons_hit q req g gs f hname hmat hfq,
            firstMatchingGroup_cons_hit q g gs f hname hmat hfq, Option.map_some']
          rcases hg with ha | ha
          · rw [if_pos ha, actionOutcome, if_pos ha]
          · have hne : g.action ≠ "empty".toList := by
              rw [ha]; decide
            rw [if_neg hne, if_pos ha, actionOutcome, if_neg hne]

/-- C3: for an in-zone qname, `ServeDNS` applies the action of the first
group in configured order (skipping the one named `default`) whose matcher
is set and matches; if none matches it applies the default group's action
when a default group exists, and otherwise counts `no_match_total` and
passes through; an out-of-zone qname passes through without consulting any
group.  Group actions range over the two values configuration
validation admits. -/
theorem serveDNS_first_match (zm : Str → Str → Bool) (r : Ruledforward) (req : DnsMsg)
    (hv : ∀ g ∈ r.groups, validAction g)
    (hvd : ∀ d, r.defaultGroup = some d → validAction d) :
    serveDNS zm r req = dispatchSpec zm r req := by
  rw [serveDNS, dispatchSpec]
  by_cases hz : r.fromZone ≠ ['.'] ∧ zm r.fromZone (reqName req) = false
  · rw [if_pos hz, if_pos hz]
  · rw [if_neg hz, if_neg hz, scanGroups_eq_spec _ _ _ hv]
    rcases firstMatchingGroup (reqName req) r.groups with _ | g
    · rw [Option.map_none']
      rcases hd : r.defaultGroup with _ | d
      · rfl
      · show (if d.action = "empty".toList then
            Outcome.emptyReply d.name (emptyActionMsg req (reqName req))
          else if d.action = "forward".toList then Outcome.forwarded d.name
          else Outcome.passThroughNoMatch) = actionOutcome d req (reqName req)
        rcases hvd d hd with ha | ha
        · rw [if_pos ha, actionOutcome, if_pos ha]
        · have hne : d.action ≠ "empty".toList := by
            rw [ha]; decide
          rw [if_neg hne, if_pos ha, actionOutcome, if_neg hne]
    · rw [Option.map_some']

/-- Witness for C3 on a concrete two-group configuration. -/
theorem serveDNS_first_match_witness :
    serveDNS (fun _ _ => true)
      { fromZone := ['.'],
        groups := [{ name := "block".toList, action := "empty".toList,
                     matcher := some (fun _ => true) }],
        defaultGroup := none }
      { id := 7, response := false,
        question := [{ name := "a.example.com.".toList, qtype := 1 }],
        answer := [], ns := [] } =
    dispatchSpec (fun _ _ => true)
      { fromZone := ['.'],
        groups := [{ name := "block".toList, action := "empty".toList,
                     matcher := some (fun _ => true) }],
        defaultGroup := none }
      { id := 7, response := false,
        question := [{ name := "a.example.com.".toList, qtype := 1 }],
        answer := [], ns := [] } :=
  serveDNS_first_match _ _ _
    (by
      intro g hg
      rw [List.mem_singleton] at hg
      subst hg
      exact Or.inl rfl)
    (fun d hd => nomatch hd)

/-- C10: when no non-default group handles the qname and a default group
is cached, `ServeDNS` applies the default group's action without loading
or evaluating the default group's matcher, so the outcome is unchanged
under any replacement of that matcher (including the null matcher). -/
theorem default_matcher_not_consulted (zm : Str → Str → Bool) (r : Ruledforward)
    (req : DnsMsg) (d : DispatchGroup) (m' : Option (Str → Bool))
    (hd : r.defaultGroup = some d)
    (hz : ¬(r.fromZone ≠ ['.'] ∧ zm r.fromZone (reqName req) = false))
    (hmiss : scanGroups (reqName req) req r.groups = none)
    (ha : validAction d) :
    serveDNS zm r req = actionOutcome d req (reqName req) ∧
      serveDNS zm { r with defaultGroup := some { d with matcher := m' } } req =
        serveDNS zm r req := by
  constructor
  · rw [serveDNS, if_neg hz, hmiss, hd]
    show (if d.action = "empty".toList then
        Outcome.emptyReply d.name (emptyActionMsg req (reqName req))
      else if d.action = "forward".toList then Outcome.forwarded d.name
      else Outcome.passThroughNoMatch) = actionOutcome d req (reqName req)
    rcases ha with ha | ha
    · rw [if_pos ha, actionOutcome, if_pos ha]
    · have hne : d.action ≠ "empty".toList := by
        rw [ha]; decide
      rw [if_neg hne, if_pos ha, actionOutcome, if_neg hne]
  · rw [serveDNS, serveDNS, if_neg hz, if_neg hz, hmiss, hd]

/-- Witness for C10: a default group whose matcher is the null sentinel
still supplies the applied action. -/
def dC10 : DispatchGroup :=
  { name := "default".toList, action := "empty".toList, matcher := none }

def rC10 : Ruledforward :=
  { fromZone := ['.'], groups := [], defaultGroup := some dC10 }

def reqC10 : DnsMsg :=
  { id := 3, response := false,
    question := [{ name := "other.example.com.".toList, qtype := 1 }],
    answer := [], ns := [] }

/-- Witness for C10: a default group whose matcher is the null sentinel
still supplies the applied action. -/
theorem default_matcher_not_consulted_witness :
    serveDNS (fun _ _ => true) rC10 reqC10 = actionOutcome dC10 reqC10 (reqName reqC10) :=
  (default_matcher_not_consulted (fun _ _ => true) rC10 reqC10 dC10 none rfl
    (by
      rintro ⟨h, -⟩
      exact h rfl)
    rfl (Or.inl rfl)).1

theorem scanGroups_empty_inv (q : Str) (req : DnsMsg) (gs : List DispatchGroup)
    (nm : Str) (msg : DnsMsg)
    (h : scanGroups q req gs = some (.emptyReply nm msg)) :
    msg = emptyActionMsg req q := by
  induction gs with
  | nil => cases h
  | cons g gs ih =>
    by_cases hname : g.name = "default".toList
    · rw [scanGroups_cons_miss q req g gs (Or.inl hname)] at h
      exact ih h
    · rcases hmat : g.matcher with _ | f
      · rw [scanGroups_cons_miss q req g gs (Or.inr (Or.inl hmat))] at h
        exact ih h
      · rcases hfq : f q with _ | _
        · rw [scanGroups_cons_miss q req g gs (Or.inr (Or.inr ⟨f, hmat, hfq⟩))] at h
          exact ih h
        · rw [scanGroups_cons_hit q req g gs f hname hmat hfq] at h
          by_cases hemp : g.action = "empty".toList
          · rw [if_pos hemp] at h
            cases h
            rfl
          · rw [if_neg hemp] at h
            by_cases hfw : g.action = "forward".toList
            · rw [if_pos hfw] at h
              cases h
            · rw [if_neg hfw] at h
              exact ih h

theorem serveDNS_empty_inv (zm : Str → Str → Bool) (r : Ruledforward) (req : DnsMsg)
    (nm : Str) (msg : DnsMsg)
    (h : serveDNS zm r req = .emptyReply nm msg) :
    msg = emptyActionMsg req (reqName req) := by
  rw [serveDNS] at h
  by_cases hz : r.fromZone ≠ ['.'] ∧ zm r.fromZone (reqName req) = false
  · rw [if_pos hz] at h
    cases h
  · rw [if_neg hz] at h
    rcases hscan : scanGroups (reqName req) req r.groups with _ | o
    · rw [hscan] at h
      rcases hd : r.defaultGroup with _ | d
      · rw [hd] at h
        cases h
      · rw [hd] at h
        have h' : (if d.action = "empty".toList then
            Outcome.emptyReply d.name (emptyActionMsg req (reqName req))
          else if d.action = "forward".toList then Outcome.forwarded d.name
          else Outcome.passThroughNoMatch) = Outcome.emptyReply nm msg := h
        by_cases hemp : d.action = "empty".toList
        · rw [if_pos hemp] at h'
          cases h'
          rfl
        · rw [if_neg hemp] at h'
          by_cases hfw : d.action = "forward".toList
          · rw [if_pos hfw] at h'
            cases h'
          · rw [if_neg hfw] at h'
            cases h' 
    · rw [hscan] at h
      cases h
      exact scanGroups_empty_inv _ _ _ _ _ hscan

/-- C6: a reply produced by an `empty`-action group echoes the request's
question, carries no answers, and has exactly one SOA authority record
with owner = qname, TTL 60, class IN, NS `.`, mailbox `.`, serial,
refresh, retry and expire all 0, and minimum TTL 60. -/
theorem empty_action_reply (zm : Str → Str → Bool) (r : Ruledforward) (req : DnsMsg)
    (nm : Str) (msg : DnsMsg) (qq : DnsQuestion)
    (h : serveDNS zm r req = .emptyReply nm msg) (hq : req.question = [qq]) :
    msg.question = [qq] ∧ msg.answer = [] ∧
      msg.ns = [{ name := reqName req, ttl := 60, rrclass := 1, rrtype := 6,
                  ns := ['.'], mbox := ['.'], serial := 0, refresh := 0, retry := 0,
                  expire := 0, minttl := 60 }] := by
  have hmsg := serveDNS_empty_inv zm r req nm msg h
  subst hmsg
  refine ⟨?_, rfl, rfl⟩
  show (setReply req).question = [qq]
  rw [setReply]
  simp [hq]

def reqC6 : DnsMsg :=
  { id := 9, response := false,
    question := [{ name := "blocked.example.com.".toList, qtype := 1 }],
    answer := [], ns := [] }

def rC6 : Ruledforward :=
  { fromZone := ['.'],
    groups := [{ name := "block".toList, action := "empty".toList,
                 matcher := some (fun _ => true) }],
    defaultGroup := none }

/-- Witness for C6 on a concrete matching request. -/
theorem empty_action_reply_witness :
    (emptyActionMsg reqC6 (reqName reqC6)).question =
        [{ name := "blocked.example.com.".toList, qtype := 1 }] ∧
    (emptyActionMsg reqC6 (reqName reqC6)).answer = [] ∧
    (emptyActionMsg reqC6 (reqName reqC6)).ns =
      [{ name := reqName reqC6, ttl := 60, rrclass := 1, rrtype := 6,
          ns := ['.'], mbox := ['.'], serial := 0, refresh := 0, retry := 0,
          expire := 0, minttl := 60 }] :=
  empty_action_reply (fun _ _ => true) rC6 reqC6 "block".toList
    (emptyActionMsg reqC6 (reqName reqC6))
    { name := "blocked.example.com.".toList, qtype := 1 } rfl rfl


theorem updateMatcher_eq_accum (compile : Str → Option (Str → Bool)) (env : SourceEnv)
    (dlc : Option (Str → List Rule)) (mask : Nat) (g : GroupState) :
    updateMatcher compile env dlc mask g =
      match accumSelected compile env dlc mask g.cfg with
      | .error e => (g, .error e)
      | .ok bm => (setMatcher g (bloomedBuild bm), .ok ()) := by
  rw [updateMatcher, accumSelected]
  rcases h3 :
    (if mask &&& UpdateMatcherAdguardLocal ≠ 0 then
      loadApply env.files compile
        (if mask &&& UpdateMatcherInlinee ≠ 0 then
          addRules compile
            (if mask &&& UpdateMatcherGeosite ≠ 0 then
              addGeosite compile dlc newBloomedMatcher g.cfg.geositeNames
            else newBloomedMatcher) g.cfg.inlineRules
        else
          (if mask &&& UpdateMatcherGeosite ≠ 0 then
            addGeosite compile dlc newBloomedMatcher g.cfg.geositeNames
          else newBloomedMatcher)) g.cfg.adguardPaths
    else .ok
      (if mask &&& UpdateMatcherInlinee ≠ 0 then
        addRules compile
          (if mask &&& UpdateMatcherGeosite ≠ 0 then
            addGeosite compile dlc newBloomedMatcher g.cfg.geositeNames
          else newBloomedMatcher) g.cfg.inlineRules
      else
        (if mask &&& UpdateMatcherGeosite ≠ 0 then
          addGeosite compile dlc newBloomedMatcher g.cfg.geositeNames
        else newBloomedMatcher))) with e | bm3
  · rfl
  · rcases h4 :
      (if mask &&& UpdateMatcherAdguardRemote ≠ 0 then
        loadApply env.urls compile bm3 g.cfg.adguardURLs
      else .ok bm3) with e | bm4
    · rfl
    · rfl

/-- C5: `Update` is atomic.  When loading any selected rule source fails,
it returns the error and leaves the group untouched (`SetMatcher` is not
called); when every selected source loads, `SetMatcher` is called exactly
once, publishing the fully accumulated and built matcher. -/
theorem update_atomic (compile : Str → Option (Str → Bool)) (env : SourceEnv)
    (dlc : Option (Str → List Rule)) (mask : Nat) (g : GroupState) :
    ((updateG compile env dlc mask g).2 = .error () →
      (updateG compile env dlc mask g).1 = g) ∧
    ((updateG compile env dlc mask g).2 = .ok () →
      ∃ bm, accumSelected compile env dlc mask g.cfg = .ok bm ∧
        (updateG compile env dlc mask g).1 = setMatcher g (bloomedBuild bm) ∧
        (updateG compile env dlc mask g).1.setCount = g.setCount + 1) := by
  have he := updateMatcher_eq_accum compile env dlc mask g
  rw [updateG] at *
  rcases hacc : accumSelected compile env dlc mask g.cfg with e | bm
  · rw [hacc] at he
    rw [he]
    exact ⟨fun _ => rfl, fun hok => nomatch hok⟩
  · rw [hacc] at he
    rw [he]
    constructor
    · intro hcon
      exact Except.noConfusion hcon
    · intro hok
      exact ⟨bm, rfl, rfl, rfl⟩

def envFailC5 : SourceEnv :=
  { files := fun _ => .error (), urls := fun _ => .ok [] }

def envOkC5 : SourceEnv :=
  { files := fun _ => .ok [{ type := .domain, value := "f.example.com.".toList }],
    urls := fun _ => .ok [{ type := .domain, value := "u.example.com.".toList }] }

def gC5 : GroupState :=
  { cfg := { name := "g".toList, geositeNames := [],
             inlineRules := [{ type := .keyword, value := "ad".toList }],
             adguardPaths := ["p.txt".toList], adguardURLs := ["u".toList] },
    matcher := none, setCount := 0 }

/-- Witness for C5: a failing local source leaves the group unchanged, a
fully successful load publishes exactly once. -/
theorem update_atomic_witness :
    (updateG noRegex envFailC5 none UpdateMatcherAll gC5).1 = gC5 ∧
      ∃ bm, accumSelected noRegex envOkC5 none UpdateMatcherAll gC5.cfg = .ok bm ∧
        (updateG noRegex envOkC5 none UpdateMatcherAll gC5).1 =
          setMatcher gC5 (bloomedBuild bm) ∧
        (updateG noRegex envOkC5 none UpdateMatcherAll gC5).1.setCount = gC5.setCount + 1 :=
  ⟨(update_atomic noRegex envFailC5 none UpdateMatcherAll gC5).1 rfl,
   (update_atomic noRegex envOkC5 none UpdateMatcherAll gC5).2 rfl⟩

theorem matchM_true_of_keyword_regex (m : Matcher) (q : Str)
    (h : (∃ k ∈ m.keyword, containsSubstr (normName q) k = true) ∨
      (∃ f ∈ m.regex, f (normName q) = true)) :
    matchM m q = true := by
  rw [matchM]
  split
  · rfl
  · split
    · rfl
    · rcases h with ⟨k, hk, hks⟩ | ⟨f, hf, hfs⟩
      · rw [if_pos]
        exact List.any_eq_true.mpr ⟨k, hk, hks⟩
      · split
        · rfl
        · exact List.any_eq_true.mpr ⟨f, hf, hfs⟩

/-- C2 amended: for a matcher installed by `updateMatcher`/`Update`, a
qname that matches some Keyword or Regex rule of the matcher is matched
provided the Bloom pre-filter also answers positively; the Bloom gate
applies to Keyword/Regex rules exactly as to the others. -/
theorem keyword_regex_needs_bloom (compile : Str → Option (Str → Bool)) (env : SourceEnv)
    (dlc : Option (Str → List Rule)) (mask : Nat) (g g' : GroupState) (bm : BloomedMatcher)
    (q : Str)
    (_hup : updateG compile env dlc mask g = (g', .ok ()))
    (_hm : g'.matcher = some bm)
    (hkr : (∃ k ∈ bm.m.keyword, containsSubstr (normName q) k = true) ∨
      (∃ f ∈ bm.m.regex, f (normName q) = true))
    (hbloom : maybeMatch bm.bf q = true) :
    bloomedMatch bm q = true := by
  rw [bloomedMatch, hbloom, matchM_true_of_keyword_regex bm.m q hkr, Bool.and_self]

def envC2 : SourceEnv :=
  { files := fun _ => .ok [], urls := fun _ => .ok [] }

def gC2 : GroupState :=
  { cfg := { name := "g".toList, geositeNames := [],
             inlineRules := [{ type := .keyword, value := "xyz".toList }],
             adguardPaths := [], adguardURLs := [] },
    matcher := none, setCount := 0 }

def bmC2 : BloomedMatcher :=
  bloomedBuild (addRules noRegex newBloomedMatcher [{ type := .keyword, value := "xyz".toList }])

/-- C2 counterexample: `updateMatcher` installs a Bloomed matcher even for
a keyword-only group; its Bloom filter is empty, so a qname matching the
Keyword rule (per §3) is not matched — the Keyword match is lost to the
Bloom pre-filter. -/
theorem keyword_lost_counterexample :
    (updateG noRegex envC2 none UpdateMatcherAll gC2).2 = .ok () ∧
    (updateG noRegex envC2 none UpdateMatcherAll gC2).1.matcher = some bmC2 ∧
    claimRuleMatches noRegex { type := .keyword, value := "xyz".toList }
      "xyz.example.com.".toList = true ∧
    matchM bmC2.m "xyz.example.com.".toList = true ∧
    bloomedMatch bmC2 "xyz.example.com.".toList = false :=
  ⟨rfl, rfl, by decide, by decide, by decide⟩

/-- Witness for the amended C2 on a group carrying both a Keyword rule and
a Domain rule whose Bloom key the qname hits. -/
theorem keyword_regex_needs_bloom_witness :
    bloomedMatch
      (bloomedBuild (addRules noRegex newBloomedMatcher
        [{ type := .keyword, value := "xyz".toList },
         { type := .domain, value := "xyz.com.".toList }]))
      "a.xyz.com.".toList = true :=
  keyword_regex_needs_bloom noRegex
    { files := fun _ => .ok [], urls := fun _ => .ok [] }
    none UpdateMatcherAll
    { cfg := { name := "g".toList, geositeNames := [],
               inlineRules := [{ type := .keyword, value := "xyz".toList },
                               { type := .domain, value := "xyz.com.".toList }],
               adguardPaths := [], adguardURLs := [] },
      matcher := none, setCount := 0 }
    _ _ "a.xyz.com.".toList rfl rfl
    (Or.inl ⟨"xyz".toList, by decide, by decide⟩) (by decide)


theorem trieContains_emptyNode (ls : List Str) :
    trieContains (.node false []) ls = false := by
  cases ls with
  | nil => rfl
  | cons l ls => rfl

theorem lookupChild_setChild_self (ch : List (Str × DomainTrie)) (a : Str) (c : DomainTrie) :
    lookupChild (setChild ch a c) a = some c := by
  induction ch with
  | nil => simp [setChild, lookupChild]
  | cons kv rest ih =>
    obtain ⟨k, v⟩ := kv
    by_cases hk : k = a
    · simp [setChild, lookupChild, hk]
    · simp [setChild, lookupChild, hk, ih]

theorem lookupChild_setChild_other (ch : List (Str × DomainTrie)) (a l : Str)
    (c : DomainTrie) (h : l ≠ a) :
    lookupChild (setChild ch a c) l = lookupChild ch l := by
  have h' : ¬a = l := fun hh => h hh.symm
  induction ch with
  | nil => simp [setChild, lookupChild, h']
  | cons kv rest ih =>
    obtain ⟨k, v⟩ := kv
    by_cases hk : k = a
    · have hkl : ¬k = l := fun hh => h' (hk ▸ hh)
      simp [setChild, lookupChild, hk, h', hkl]
    · by_cases hkl : k = l
      · simp [setChild, lookupChild, hk, hkl, h]
      · simp [setChild, lookupChild, hk, hkl, ih]

theorem trieContains_trieInsert (ls' : List Str) (t : DomainTrie) (ls : List Str) :
    trieContains (trieInsert ls' t) ls = (decide (ls = ls') || trieContains t ls) := by
  induction ls' generalizing t ls with
  | nil =>
    obtain ⟨b, ch⟩ := t
    cases ls with
    | nil => simp [trieInsert, trieContains, DomainTrie.matchEnd, DomainTrie.children]
    | cons l rest =>
      simp [trieInsert, trieContains, DomainTrie.matchEnd, DomainTrie.children]
  | cons a ls'' ih =>
    obtain ⟨b, ch⟩ := t
    cases ls with
    | nil =>
      simp [trieInsert, trieContains, DomainTrie.matchEnd, DomainTrie.children]
    | cons l rest =>
      by_cases hla : l = a
      · subst hla
        rcases hlk : lookupChild ch l with _ | c
        · simp only [trieInsert, trieContains, DomainTrie.children, DomainTrie.matchEnd, hlk,
            lookupChild_setChild_self, ih, trieContains_emptyNode, Bool.or_false]
          simp
        · simp only [trieInsert, trieContains, DomainTrie.children, DomainTrie.matchEnd, hlk,
            lookupChild_setChild_self, ih]
          simp
      · simp only [trieInsert, trieContains, DomainTrie.children, DomainTrie.matchEnd,
          lookupChild_setChild_other ch a l _ hla]
        have hd : decide (l :: rest = a :: ls'') = false := by
          simp [hla]
        rw [hd, Bool.false_or]

theorem trieContainsOpt_insert (t : Option DomainTrie) (v : Str) (ls : List Str) :
    trieContainsOpt (insertDomainTrie t v) ls =
      ((decide (domainLabels v ≠ []) && decide (ls = domainLabels v)) ||
        trieContainsOpt t ls) := by
  rw [insertDomainTrie]
  by_cases hl : domainLabels v = []
  · simp [hl]
  · rcases t with _ | t
    · simp [hl, trieContainsOpt, trieContains_trieInsert, trieContains_emptyNode]
    · simp [hl, trieContainsOpt, trieContains_trieInsert]

theorem buildTrieFrom_go (ds : List Str) (acc : Option DomainTrie) (seen : List Str)
    (hinv : ∀ ls, trieContainsOpt acc ls = true ↔
      ∃ d ∈ seen, domainLabels d = ls ∧ ls ≠ []) (ls : List Str) :
    trieContainsOpt
      (ds.foldl
        (fun (acc : Option DomainTrie × List Str) d =>
          if d ∈ acc.2 then acc else (insertDomainTrie acc.1 d, d :: acc.2))
        (acc, seen)).1 ls = true ↔
      ∃ d, (d ∈ ds ∨ d ∈ seen) ∧ domainLabels d = ls ∧ ls ≠ [] := by
  induction ds generalizing acc seen with
  | nil =>
    rw [List.foldl_nil, hinv ls]
    constructor
    · rintro ⟨d, hd, rest⟩
      exact ⟨d, Or.inr hd, rest⟩
    · rintro ⟨d, hd | hd, rest⟩
      · cases hd
      · exact ⟨d, hd, rest⟩
  | cons d ds ih =>
    rw [List.foldl_cons]
    by_cases hd : d ∈ seen
    · rw [if_pos hd]
      rw [ih acc seen hinv]
      constructor
      · rintro ⟨d', hmem | hmem, rest⟩
        · exact ⟨d', Or.inl (List.mem_cons_of_mem d hmem), rest⟩
        · exact ⟨d', Or.inr hmem, rest⟩
      · rintro ⟨d', hmem | hmem, rest⟩
        · rcases List.mem_cons.mp hmem with he | hmem2
          · exact ⟨d', Or.inr (he ▸ hd), rest⟩
          · exact ⟨d', Or.inl hmem2, rest⟩
        · exact ⟨d', Or.inr hmem, rest⟩
    · rw [if_neg hd]
      have hinv' : ∀ ls', trieContainsOpt (insertDomainTrie acc d) ls' = true ↔
          ∃ d' ∈ d :: seen, domainLabels d' = ls' ∧ ls' ≠ [] := by
        intro ls'
        rw [trieContainsOpt_insert]
        simp only [Bool.or_eq_true, Bool.and_eq_true, decide_eq_true_eq, hinv ls',
          List.mem_cons]
        constructor
        · rintro (⟨hne, heq⟩ | ⟨d', hd', hlab, hne'⟩)
          · exact ⟨d, Or.inl rfl, heq.symm, fun hc => hne (heq.symm.trans hc)⟩
          · exact ⟨d', Or.inr hd', hlab, hne'⟩
        · rintro ⟨d', hd' | hd', hlab, hne'⟩
          · subst hd'
            exact Or.inl ⟨fun hc => hne' (hlab.symm.trans hc), hlab.symm⟩
          · exact Or.inr ⟨d', hd', hlab, hne'⟩
      rw [ih _ _ hinv']
      constructor
      · rintro ⟨d', hmem | hmem, rest⟩
        · exact ⟨d', Or.inl (List.mem_cons_of_mem d hmem), rest⟩
        · rcases List.mem_cons.mp hmem with he | hmem2
          · exact ⟨d', Or.inl (he ▸ List.mem_cons_self d ds), rest⟩
          · exact ⟨d', Or.inr hmem2, rest⟩
      · rintro ⟨d', hmem | hmem, rest⟩
        · rcases List.mem_cons.mp hmem with he | hmem2
          · exact ⟨d', Or.inr (by rw [he]; exact List.mem_cons_self d seen), rest⟩
          · exact ⟨d', Or.inl hmem2, rest⟩
        · exact ⟨d', Or.inr (List.mem_cons_of_mem d hmem), rest⟩

theorem trieContainsOpt_buildTrieFrom (ds : List Str) (ls : List Str) :
    trieContainsOpt (buildTrieFrom ds) ls = true ↔
      ∃ d ∈ ds, domainLabels d = ls ∧ ls ≠ [] := by
  rw [buildTrieFrom,
    buildTrieFrom_go ds none [] (fun ls' => by simp [trieContainsOpt]) ls]
  constructor
  · rintro ⟨d, hd | hd, rest⟩
    · exact ⟨d, hd, rest⟩
    · cases hd
  · rintro ⟨d, hd, rest⟩
    exact ⟨d, Or.inl hd, rest⟩

theorem trieWalk_iff (t : DomainTrie) (ls : List Str) :
    trieWalk t ls = true ↔ ∃ ps, ps <+: ls ∧ trieContains t ps = true := by
  induction ls generalizing t with
  | nil =>
    constructor
    · intro h
      exact ⟨[], List.nil_prefix, h⟩
    · rintro ⟨ps, hpre, hc⟩
      have hps : ps = [] := List.prefix_nil.mp hpre
      subst hps
      exact hc
  | cons l rest ih =>
    obtain ⟨b, ch⟩ := t
    cases b
    · show (match lookupChild ch l with
        | none => false
        | some c => trieWalk c rest) = true ↔ _
      rcases hlk : lookupChild ch l with _ | c
      · constructor
        · intro h
          cases h
        · rintro ⟨ps, hpre, hc⟩
          rcases ps with _ | ⟨p, ps'⟩
          · cases hc
          · obtain ⟨hp, hpre'⟩ := List.cons_prefix_cons.mp hpre
            subst hp
            rw [show trieContains (.node false ch) (p :: ps') =
                (match lookupChild ch p with
                  | none => false
                  | some c => trieContains c ps') from rfl, hlk] at hc
            cases hc
      · rw [ih c]
        constructor
        · rintro ⟨ps', hpre', hc⟩
          refine ⟨l :: ps', List.cons_prefix_cons.mpr ⟨rfl, hpre'⟩, ?_⟩
          rw [show trieContains (.node false ch) (l :: ps') =
              (match lookupChild ch l with
                | none => false
                | some c => trieContains c ps') from rfl, hlk]
          exact hc
        · rintro ⟨ps, hpre, hc⟩
          rcases ps with _ | ⟨p, ps'⟩
          · cases hc
          · obtain ⟨hp, hpre'⟩ := List.cons_prefix_cons.mp hpre
            subst hp
            rw [show trieContains (.node false ch) (p :: ps') =
                (match lookupChild ch p with
                  | none => false
                  | some c => trieContains c ps') from rfl, hlk] at hc
            exact ⟨ps', hpre', hc⟩
    · constructor
      · intro _
        exact ⟨[], List.nil_prefix, rfl⟩
      · intro _
        rfl

theorem matchDomainTrie_built (ds : List Str) (q : Str) (m : Matcher)
    (hm : m.domainTrie = buildTrieFrom ds) :
    matchDomainTrie m q = true ↔
      ∃ d ∈ ds, domainLabels d ≠ [] ∧ domainLabels d <+: domainLabels q := by
  rw [matchDomainTrie]
  by_cases hq : domainLabels q = []
  · rw [if_pos hq]
    simp only [Bool.false_eq_true, false_iff]
    rintro ⟨d, hd, hne, hpre⟩
    rw [hq] at hpre
    exact hne (List.prefix_nil.mp hpre)
  · rw [if_neg hq, hm]
    rcases hbt : buildTrieFrom ds with _ | t
    · constructor
      · intro h
        cases h
      · rintro ⟨d, hd, hne, hpre⟩
        have hcc := (trieContainsOpt_buildTrieFrom ds (domainLabels d)).mpr ⟨d, hd, rfl, hne⟩
        rw [hbt] at hcc
        cases hcc
    · rw [trieWalk_iff]
      constructor
      · rintro ⟨ps, hpre, hc⟩
        have hcc : trieContainsOpt (buildTrieFrom ds) ps = true := by
          rw [hbt]
          exact hc
        obtain ⟨d, hd, hlab, hne⟩ := (trieContainsOpt_buildTrieFrom ds ps).mp hcc
        refine ⟨d, hd, ?_, ?_⟩
        · rw [hlab]
          exact hne
        · rw [hlab]
          exact hpre
      · rintro ⟨d, hd, hne, hpre⟩
        have hcc := (trieContainsOpt_buildTrieFrom ds (domainLabels d)).mpr ⟨d, hd, rfl, hne⟩
        rw [hbt] at hcc
        exact ⟨domainLabels d, hpre, hcc⟩

theorem addRule_full (compile : Str → Option (Str → Bool)) (m : Matcher) (r : Rule) :
    (addRule compile m r).full =
      if r.type = .full then normName r.value :: m.full else m.full := by
  rcases r with ⟨ty, v⟩
  cases ty
  case domain => rfl
  case full => rfl
  case keyword => rfl
  case regex =>
    show (match compile v with
      | none => m
      | some f => { m with regex := m.regex ++ [f] }).full = _
    rcases compile v with _ | f <;> rfl

theorem addRule_domain (compile : Str → Option (Str → Bool)) (m : Matcher) (r : Rule) :
    (addRule compile m r).domain =
      if r.type = .domain then m.domain ++ [normName r.value] else m.domain := by
  rcases r with ⟨ty, v⟩
  cases ty
  case domain => rfl
  case full => rfl
  case keyword => rfl
  case regex =>
    show (match compile v with
      | none => m
      | some f => { m with regex := m.regex ++ [f] }).domain = _
    rcases compile v with _ | f <;> rfl

theorem addRule_keyword (compile : Str → Option (Str → Bool)) (m : Matcher) (r : Rule) :
    (addRule compile m r).keyword =
      if r.type = .keyword then m.keyword ++ [lowerStr r.value] else m.keyword := by
  rcases r with ⟨ty, v⟩
  cases ty
  case domain => rfl
  case full => rfl
  case keyword => rfl
  case regex =>
    show (match compile v with
      | none => m
      | some f => { m with regex := m.regex ++ [f] }).keyword = _
    rcases compile v with _ | f <;> rfl

theorem addRule_regex (compile : Str → Option (Str → Bool)) (m : Matcher) (r : Rule) :
    (addRule compile m r).regex =
      m.regex ++ (if r.type = .regex then (compile r.value).toList else []) := by
  rcases r with ⟨ty, v⟩
  cases ty
  case domain => simp [addRule]
  case full => simp [addRule]
  case keyword => simp [addRule]
  case regex =>
    show (match compile v with
      | none => m
      | some f => { m with regex := m.regex ++ [f] }).regex = _
    rcases compile v with _ | f <;> simp

theorem foldl_addRule_full (compile : Str → Option (Str → Bool)) (rs : List Rule)
    (m0 : Matcher) :
    (rs.foldl (addRule compile) m0).full =
      (rs.filterMap
        (fun r => if r.type = .full then some (normName r.value) else none)).reverse
        ++ m0.full := by
  induction rs generalizing m0 with
  | nil => simp
  | cons r rs ih =>
    rw [List.foldl_cons, ih, List.filterMap_cons]
    by_cases ht : r.type = .full
    · rw [if_pos ht, addRule_full, if_pos ht]
      simp
    · rw [if_neg ht, addRule_full, if_neg ht]

theorem foldl_addRule_domain (compile : Str → Option (Str → Bool)) (rs : List Rule)
    (m0 : Matcher) :
    (rs.foldl (addRule compile) m0).domain =
      m0.domain ++ rs.filterMap
        (fun r => if r.type = .domain then some (normName r.value) else none) := by
  induction rs generalizing m0 with
  | nil => simp
  | cons r rs ih =>
    rw [List.foldl_cons, ih, List.filterMap_cons]
    by_cases ht : r.type = .domain
    · rw [if_pos ht, addRule_domain, if_pos ht]
      simp
    · rw [if_neg ht, addRule_domain, if_neg ht]

theorem foldl_addRule_keyword (compile : Str → Option (Str → Bool)) (rs : List Rule)
    (m0 : Matcher) :
    (rs.foldl (addRule compile) m0).keyword =
      m0.keyword ++ rs.filterMap
        (fun r => if r.type = .keyword then some (lowerStr r.value) else none) := by
  induction rs generalizing m0 with
  | nil => simp
  | cons r rs ih =>
    rw [List.foldl_cons, ih, List.filterMap_cons]
    by_cases ht : r.type = .keyword
    · rw [if_pos ht, addRule_keyword, if_pos ht]
      simp
    · rw [if_neg ht, addRule_keyword, if_neg ht]

theorem foldl_addRule_regex (compile : Str → Option (Str → Bool)) (rs : List Rule)
    (m0 : Matcher) :
    (rs.foldl (addRule compile) m0).regex =
      m0.regex ++ rs.flatMap
        (fun r => if r.type = .regex then (compile r.value).toList else []) := by
  induction rs generalizing m0 with
  | nil => simp
  | cons r rs ih =>
    rw [List.foldl_cons, ih, List.flatMap_cons, addRule_regex, List.append_assoc]

theorem matchM_eq_or (m : Matcher) (q : Str) :
    matchM m q =
      (m.full.contains (normName q) || matchDomainTrie m (normName q) ||
        m.keyword.any (fun k => containsSubstr (normName q) k) ||
        m.regex.any (fun re => re (normName q))) := by
  rw [matchM]
  split_ifs with h1 h2 h3 <;> simp_all

theorem amendedRuleMatches_iff (compile : Str → Option (Str → Bool)) (r : Rule) (q : Str) :
    amendedRuleMatches compile r q = true ↔
      ((r.type = .full ∧ normName q = normName r.value) ∨
       (r.type = .domain ∧ domainLabels (normName r.value) ≠ [] ∧
          domainLabels (normName r.value) <+: domainLabels (normName q)) ∨
       (r.type = .keyword ∧ containsSubstr (normName q) (lowerStr r.value) = true) ∨
       (r.type = .regex ∧ ∃ f, compile r.value = some f ∧ f (normName q) = true)) := by
  rcases r with ⟨ty, v⟩
  cases ty
  case full => simp [amendedRuleMatches]
  case domain => simp [amendedRuleMatches]
  case keyword => simp [amendedRuleMatches]
  case regex =>
    simp only [amendedRuleMatches]
    rcases hc : compile v with _ | f <;> simp

theorem claimRuleMatches_iff (compile : Str → Option (Str → Bool)) (r : Rule) (q : Str) :
    claimRuleMatches compile r q = true ↔
      ((r.type = .full ∧ normName q = normName r.value) ∨
       (r.type = .domain ∧ (normName q = normName r.value ∨
          ('.' :: normName r.value) <:+ normName q)) ∨
       (r.type = .keyword ∧ containsSubstr (normName q) (lowerStr r.value) = true) ∨
       (r.type = .regex ∧ ∃ f, compile r.value = some f ∧ f (normName q) = true)) := by
  rcases r with ⟨ty, v⟩
  cases ty
  case full => simp [claimRuleMatches]
  case domain => simp [claimRuleMatches]
  case keyword => simp [claimRuleMatches]
  case regex =>
    simp only [claimRuleMatches]
    rcases hc : compile v with _ | f <;> simp

/-- C1 (amended): a built matcher matches a qname exactly when some added
rule matches it under the §3 semantics with the Domain clause read at
label granularity: the rule value's (non-empty) label list, right to
left, is a prefix of the qname's label list. -/
theorem matcher_match_iff (compile : Str → Option (Str → Bool)) (rs : List Rule) (q : Str) :
    matchM (buildMatcher compile rs) q = true ↔
      ∃ r ∈ rs, amendedRuleMatches compile r q = true := by
  rw [buildMatcher, matchM_eq_or]
  have hfull : (build (rs.foldl (addRule compile) newMatcher)).full =
      (rs.filterMap
        (fun r => if r.type = .full then some (normName r.value) else none)).reverse := by
    show (rs.foldl (addRule compile) newMatcher).full = _
    rw [foldl_addRule_full]
    simp [newMatcher]
  have hkw : (build (rs.foldl (addRule compile) newMatcher)).keyword =
      rs.filterMap (fun r => if r.type = .keyword then some (lowerStr r.value) else none) := by
    show (rs.foldl (addRule compile) newMatcher).keyword = _
    rw [foldl_addRule_keyword]
    simp [newMatcher]
  have hrx : (build (rs.foldl (addRule compile) newMatcher)).regex =
      rs.flatMap (fun r => if r.type = .regex then (compile r.value).toList else []) := by
    show (rs.foldl (addRule compile) newMatcher).regex = _
    rw [foldl_addRule_regex]
    simp [newMatcher]
  have hdom : (rs.foldl (addRule compile) newMatcher).domain =
      rs.filterMap (fun r => if r.type = .domain then some (normName r.value) else none) := by
    rw [foldl_addRule_domain]
    simp [newMatcher]
  have hA : (build (rs.foldl (addRule compile) newMatcher)).full.contains (normName q) = true ↔
      ∃ r ∈ rs, r.type = .full ∧ normName q = normName r.value := by
    rw [hfull]
    simp only [List.contains, List.elem_iff, List.mem_reverse, List.mem_filterMap]
    constructor
    · rintro ⟨r, hr, hi⟩
      by_cases ht : r.type = .full
      · rw [if_pos ht] at hi
        exact ⟨r, hr, ht, (Option.some.inj hi).symm⟩
      · rw [if_neg ht] at hi
        cases hi
    · rintro ⟨r, hr, ht, he⟩
      exact ⟨r, hr, by rw [if_pos ht, he]⟩
  have hB : matchDomainTrie (build (rs.foldl (addRule compile) newMatcher))
        (normName q) = true ↔
      ∃ r ∈ rs, r.type = .domain ∧ domainLabels (normName r.value) ≠ [] ∧
        domainLabels (normName r.value) <+: domainLabels (normName q) := by
    rw [matchDomainTrie_built ((rs.foldl (addRule compile) newMatcher).domain)
      (normName q) _ rfl]
    rw [hdom]
    constructor
    · rintro ⟨d, hd, hne, hpre⟩
      obtain ⟨r, hr, hi⟩ := List.mem_filterMap.mp hd
      by_cases ht : r.type = .domain
      · rw [if_pos ht] at hi
        cases hi
        exact ⟨r, hr, ht, hne, hpre⟩
      · rw [if_neg ht] at hi
        cases hi
    · rintro ⟨r, hr, ht, hne, hpre⟩
      exact ⟨normName r.value, List.mem_filterMap.mpr ⟨r, hr, by rw [if_pos ht]⟩, hne, hpre⟩
  have hC : (build (rs.foldl (addRule compile) newMatcher)).keyword.any
        (fun k => containsSubstr (normName q) k) = true ↔
      ∃ r ∈ rs, r.type = .keyword ∧ containsSubstr (normName q) (lowerStr r.value) = true := by
    rw [hkw, List.any_eq_true]
    constructor
    · rintro ⟨k, hk, hks⟩
      obtain ⟨r, hr, hi⟩ := List.mem_filterMap.mp hk
      by_cases ht : r.type = .keyword
      · rw [if_pos ht] at hi
        cases hi
        exact ⟨r, hr, ht, hks⟩
      · rw [if_neg ht] at hi
        cases hi
    · rintro ⟨r, hr, ht, hks⟩
      exact ⟨lowerStr r.value, List.mem_filterMap.mpr ⟨r, hr, by rw [if_pos ht]⟩, hks⟩
  have hD : (build (rs.foldl (addRule compile) newMatcher)).regex.any
        (fun re => re (normName q)) = true ↔
      ∃ r ∈ rs, r.type = .regex ∧ ∃ f, compile r.value = some f ∧ f (normName q) = true := by
    rw [hrx, List.any_eq_true]
    constructor
    · rintro ⟨f, hf, hfs⟩
      obtain ⟨r, hr, hi⟩ := List.mem_flatMap.mp hf
      by_cases ht : r.type = .regex
      · rw [if_pos ht] at hi
        rcases hc : compile r.value with _ | f'
        · rw [hc] at hi
          cases hi
        · rw [hc] at hi
          simp only [Option.toList_some, List.mem_singleton] at hi
          subst hi
          exact ⟨r, hr, ht, f, hc, hfs⟩
      · rw [if_neg ht] at hi
        cases hi
    · rintro ⟨r, hr, ht, f, hc, hfs⟩
      refine ⟨f, List.mem_flatMap.mpr ⟨r, hr, ?_⟩, hfs⟩
      rw [if_pos ht, hc]
      exact List.mem_singleton.mpr rfl
  simp only [Bool.or_eq_true, hA, hB, hC, hD]
  constructor
  · rintro (((⟨r, hr, hh⟩ | ⟨r, hr, hh⟩) | ⟨r, hr, hh⟩) | ⟨r, hr, hh⟩)
    · exact ⟨r, hr, (amendedRuleMatches_iff compile r q).mpr (Or.inl hh)⟩
    · exact ⟨r, hr, (amendedRuleMatches_iff compile r q).mpr (Or.inr (Or.inl hh))⟩
    · exact ⟨r, hr, (amendedRuleMatches_iff compile r q).mpr (Or.inr (Or.inr (Or.inl hh)))⟩
    · exact ⟨r, hr, (amendedRuleMatches_iff compile r q).mpr (Or.inr (Or.inr (Or.inr hh)))⟩
  · rintro ⟨r, hr, hm⟩
    rcases (amendedRuleMatches_iff compile r q).mp hm with hh | hh | hh | hh
    · exact Or.inl (Or.inl (Or.inl ⟨r, hr, hh⟩))
    · exact Or.inl (Or.inl (Or.inr ⟨r, hr, hh⟩))
    · exact Or.inl (Or.inr ⟨r, hr, hh⟩)
    · exact Or.inr ⟨r, hr, hh⟩

/-- C1 counterexample: the rule `Domain(".")` (producible from the AdGuard
line `||.^`) matches the root qname `.` under the claim's string-level
Domain clause (`q` equals `v`), yet the built matcher rejects it: the
trie insertion skips rule values with no labels. -/
theorem matcher_domain_dot_counterexample :
    claimRuleMatches noRegex { type := .domain, value := ".".toList } ".".toList = true ∧
    matchM (buildMatcher noRegex [{ type := .domain, value := ".".toList }])
      ".".toList = false ∧
    amendedRuleMatches noRegex { type := .domain, value := ".".toList } ".".toList = false :=
  ⟨by decide, by decide, by decide⟩

theorem fqdnStr_ne_nil (s : Str) : fqdnStr s ≠ [] := by
  rw [fqdnStr]
  by_cases h : isFqdnStr s = true
  · rw [if_pos h]
    intro hc
    subst hc
    cases h
  · rw [if_neg h]
    simp

theorem normName_ne_nil (s : Str) : normName s ≠ [] := by
  rw [normName, lowerStr]
  intro hc
  exact fqdnStr_ne_nil s (List.map_eq_nil_iff.mp hc)

theorem bloomAdd_keys (b : BloomFilterM) (ss : List Str) :
    (bloomAdd b ss).keys = b.keys ++ ss.map normName := by
  induction ss generalizing b with
  | nil => simp [bloomAdd]
  | cons s ss ih =>
    have hlen : ¬(normName s).length = 0 := fun hc =>
      normName_ne_nil s (List.length_eq_zero.mp hc)
    simp only [bloomAdd]
    rw [if_neg hlen, ih]
    simp

theorem bloomedAddRule_keys (compile : Str → Option (Str → Bool)) (bm : BloomedMatcher)
    (r : Rule) :
    (bloomedAddRule compile bm r).bf.keys =
      bm.bf.keys ++
        (if r.type = .domain ∨ r.type = .full then [normName r.value] else []) := by
  rcases r with ⟨ty, v⟩
  cases ty
  case domain => simp [bloomedAddRule, bloomAdd_keys]
  case full => simp [bloomedAddRule, bloomAdd_keys]
  case keyword => simp [bloomedAddRule]
  case regex => simp [bloomedAddRule]

theorem foldl_bloomedAddRule_keys (compile : Str → Option (Str → Bool)) (rs : List Rule)
    (bm0 : BloomedMatcher) :
    ((rs.foldl (bloomedAddRule compile) bm0).bf).keys =
      bm0.bf.keys ++ rs.flatMap
        (fun r => if r.type = .domain ∨ r.type = .full then [normName r.value] else []) := by
  induction rs generalizing bm0 with
  | nil => simp
  | cons r rs ih =>
    rw [List.foldl_cons, ih, List.flatMap_cons, bloomedAddRule_keys, List.append_assoc]

theorem mem_dotSuffixes (xs ys : Str) (hys : ys ≠ []) :
    ys ∈ dotSuffixes (xs ++ '.' :: ys) := by
  induction xs with
  | nil =>
    show ys ∈ dotSuffixes ('.' :: ys)
    simp only [dotSuffixes]
    rw [if_pos trivial, if_neg hys]
    exact List.mem_cons_self ys _
  | cons c xs ih =>
    show ys ∈ dotSuffixes (c :: (xs ++ '.' :: ys))
    simp only [dotSuffixes]
    by_cases hc : c = '.'
    · rw [if_pos hc,
        if_neg (List.append_ne_nil_of_right_ne_nil xs (List.cons_ne_nil '.' ys))]
      exact List.mem_cons_of_mem _ ih
    · rw [if_neg hc]
      exact ih

/-- C4: Bloom soundness.  Whenever some Full or Domain rule of a built
Bloomed matcher matches a qname under the §3 semantics, the wrapped
filter's `MaybeMatch` answers true: every Full/Domain rule value was added
(normalised) at `AddRule` time, and `MaybeMatch` probes the normalised
qname and each of its dot-aligned parent suffixes. -/
theorem bloom_soundness (compile : Str → Option (Str → Bool)) (rs : List Rule) (q : Str)
    (r : Rule) (hr : r ∈ rs) (ht : r.type = .full ∨ r.type = .domain)
    (hm : claimRuleMatches compile r q = true) :
    maybeMatch (buildBloomed compile rs).bf q = true := by
  have hkey : normName r.value ∈ (buildBloomed compile rs).bf.keys := by
    show normName r.value ∈ ((rs.foldl (bloomedAddRule compile) newBloomedMatcher).bf).keys
    rw [foldl_bloomedAddRule_keys]
    refine List.mem_append_right _ (List.mem_flatMap.mpr ⟨r, hr, ?_⟩)
    rw [if_pos ht.symm]
    exact List.mem_singleton.mpr rfl
  have htest : ∀ x, x ∈ (buildBloomed compile rs).bf.keys →
      bloomTest (buildBloomed compile rs).bf x = true := by
    intro x hx
    simp [bloomTest, List.contains, List.elem_iff, hx]
  rw [maybeMatch]
  rcases (claimRuleMatches_iff compile r q).mp hm with ⟨-, he⟩ | ⟨-, hd⟩ | ⟨htk, -⟩ | ⟨htr, -⟩
  · rw [he]
    rw [htest _ hkey, Bool.true_or]
  · rcases hd with he | ⟨xs, hxs⟩
    · rw [he]
      rw [htest _ hkey, Bool.true_or]
    · refine Bool.or_eq_true_iff.mpr (Or.inr (List.any_eq_true.mpr
        ⟨normName r.value, ?_, htest _ hkey⟩))
      rw [← hxs]
      exact mem_dotSuffixes xs (normName r.value) (normName_ne_nil r.value)
  · rcases ht with ht | ht <;> rw [htk] at ht <;> cases ht
  · rcases ht with ht | ht <;> rw [htr] at ht <;> cases ht

/-- Witness for C4: a Domain rule and a qname it suffixes. -/
theorem bloom_soundness_witness :
    maybeMatch
      (buildBloomed noRegex [{ type := .domain, value := "example.com".toList }]).bf
      "a.example.com".toList = true :=
  bloom_soundness noRegex [{ type := .domain, value := "example.com".toList }]
    "a.example.com".toList { type := .domain, value := "example.com".toList }
    (List.mem_singleton.mpr rfl) (Or.inr rfl) (by decide)

end RuledF
